import Mathlib

/-!
Verification development for the portray MkDocs plugin
(src/portray/mkdocs_plugin.py).

The plugin's pure logic is shallowly embedded over `List Char`:

* the qualified-name resolver (`_resolve_qname`, `_resolve_link`),
* the HTML anchor scanner (`HTML_LINK_REGEX` with `finditer`) and the
  per-page link rewriter (`on_page_content`),
* the navigation splicer (`_convert_to_section`,
  `_get_navigation_api_item_title_and_position`),
* the staleness tracker (`_check_if_code_changed`,
  `_get_latest_modification_time`, `_get_module_path`), with file
  modification timestamps modelled as rationals.

Logging is modelled by returning the list of logged messages; raised
exceptions are modelled with `Option`/`Except`.
-/

set_option maxRecDepth 4000

/-- Python `s.replace(pat, rep)` for a nonempty pattern `pat`: replace all
non-overlapping occurrences, scanning left to right.  The recursion is
driven by a fuel argument equal to the length of the remaining string;
each step consumes at least one character, so the fuel never runs out.
The plugin only ever calls `str.replace` with nonempty patterns; for an
empty pattern this model returns the string unchanged. -/
def replaceGo (pat rep : List Char) : Nat → List Char → List Char
  | 0, s => s
  | _ + 1, [] => []
  | fuel + 1, c :: cs =>
    if pat ≠ [] ∧ pat.isPrefixOf (c :: cs) = true then
      rep ++ replaceGo pat rep fuel ((c :: cs).drop pat.length)
    else
      c :: replaceGo pat rep fuel cs

/-- Python `s.replace(pat, rep)` (for the nonempty patterns the plugin uses). -/
def replaceAll (pat rep s : List Char) : List Char :=
  replaceGo pat rep s.length s

/-- Whether `pat` occurs as a contiguous substring of the second argument. -/
def containsSub (pat : List Char) : List Char → Bool
  | [] => pat.isEmpty
  | c :: cs => pat.isPrefixOf (c :: cs) || containsSub pat cs

/-- Python `s.split(sep)` for a single-character separator: always returns at
least one (possibly empty) piece, `"".split(sep) = [""]`. -/
def splitOnChar (sep : Char) : List Char → List (List Char)
  | [] => [[]]
  | c :: cs =>
    match splitOnChar sep cs with
    | [] => [[]]
    | r :: rs => if c = sep then [] :: r :: rs else (c :: r) :: rs

/-- Python `sep.join(xs)` for a single-character separator. -/
def joinSep (sep : Char) : List (List Char) → List Char
  | [] => []
  | [x] => x
  | x :: y :: rest => x ++ sep :: joinSep sep (y :: rest)

/-- Python (posix) `os.path.join(a, b)`: an absolute `b` wins; otherwise the
parts are glued with exactly one `/`. -/
def osPathJoin (a b : List Char) : List Char :=
  if b.head? = some '/' then b
  else if a = [] then b
  else if a.getLast? = some '/' then a ++ b
  else a ++ '/' :: b

/-- The `qualified_name.replace(".", "/")` step of `_resolve_qname`. -/
def dotToSlash (s : List Char) : List Char :=
  replaceAll ['.'] ['/'] s

/-- Embedding of `MkdocsPlugin._resolve_qname` (mkdocs_plugin.py:214).
The qualified name has its dots turned into slashes; when package-name
compression is on, each root package's slash-joined path is replaced (a
global `str.replace`) by its dotted name; finally the string is split on
`/`.  The class-level `root_packages` cache is modelled by passing the
root-package list explicitly: the cached value is always
`_remove_nested_modules(modules)`, a pure function of the configuration. -/
def resolve_qname (compress : Bool) (root_packages : List (List Char))
    (qualified_name : List Char) : List (List Char) :=
  let q := dotToSlash qualified_name
  let q2 := if compress then
      root_packages.foldl (fun acc rp => replaceAll (dotToSlash rp) rp acc) q
    else q
  splitOnChar '/' q2

/-- The page-URL lookup `any(True for file in files._files if file.url == url)`
of `_resolve_link`, with the file collection modelled by its list of URLs. -/
def pagePresent (registry : List (List Char)) (url : List Char) : Bool :=
  decide (url ∈ registry)

/-- The URL `f"{api_path}/{slash.join(qname)}/"` tested by `_resolve_link`. -/
def urlFor (apiPath : List Char) (segs : List (List Char)) : List Char :=
  apiPath ++ '/' :: (joinSep '/' segs ++ ['/'])

/-- The value returned by `_resolve_link` when the prefix of the first `k`
segments is found: `os.path.join(site_url, url)` plus, when segments were
dropped, `"#"` and the dropped segments rejoined with `"."`. -/
def mkResolved (apiPath siteUrl : List Char) (original : List (List Char))
    (k : Nat) : List Char :=
  let url := urlFor apiPath (original.take k)
  let path := osPathJoin siteUrl url
  if original.drop k = [] then path else path ++ '#' :: joinSep '.' (original.drop k)

/-- The `while qname:` loop of `_resolve_link` (mkdocs_plugin.py:227).
The Python loop starts from the full segment tuple and executes
`qname = qname[:-1]` after each miss, so at each iteration `qname` is
`original.take k` for `k = n, n-1, ..., 1`; the loop is re-indexed here by
that prefix length `k`. -/
def resolve_loop (apiPath siteUrl : List Char) (registry : List (List Char))
    (original : List (List Char)) : Nat → Option (List Char)
  | 0 => none
  | k + 1 =>
    if pagePresent registry (urlFor apiPath (original.take (k + 1))) = true then
      some (mkResolved apiPath siteUrl original (k + 1))
    else
      resolve_loop apiPath siteUrl registry original k

/-- Embedding of `MkdocsPlugin._resolve_link` (mkdocs_plugin.py:224).
Returns the resolved link together with the list of logged error
messages; on failure the code logs one `Invalid reference` error naming the
qualified name and returns the input unchanged. -/
def resolve_link (apiPath siteUrl : List Char) (registry : List (List Char))
    (compress : Bool) (root_packages : List (List Char))
    (qualified_name : List Char) : List Char × List (List Char) :=
  let qname := resolve_qname compress root_packages qualified_name
  match resolve_loop apiPath siteUrl registry qname qname.length with
  | some r => (r, [])
  | none => (qualified_name, [qualified_name])

-- Fixtures used by the witnesses below.

/-- Sample `api_path` configuration value (the default `"references"`). -/
def apiPathEx : List Char := "references".toList

/-- Sample page registry containing the single generated page of the
end-to-end scenario. -/
def registryEx : List (List Char) := ["references/pkg/mod/".toList]

/-- Sample qualified name `pkg.mod.Class.method`. -/
def qnameEx : List Char := "pkg.mod.Class.method".toList

-- Lemmas about the resolution loop.

/-- If no nonempty prefix of length at most `m` is registered, the loop
fails. -/
theorem resolve_loop_eq_none (apiPath siteUrl : List Char)
    (registry : List (List Char)) (original : List (List Char)) (m : Nat)
    (h : ∀ k, 1 ≤ k → k ≤ m →
      pagePresent registry (urlFor apiPath (original.take k)) = false) :
    resolve_loop apiPath siteUrl registry original m = none := by
  induction m with
  | zero => rfl
  | succ n ih =>
    have hn : pagePresent registry (urlFor apiPath (original.take (n + 1))) = false :=
      h (n + 1) (Nat.succ_le_succ (Nat.zero_le n)) (Nat.le_refl _)
    simp only [resolve_loop, hn]
    exact ih (fun k h1 h2 => h k h1 (Nat.le_succ_of_le h2))

/-- If some nonempty prefix of length at most `m` is registered, the loop
returns the result for the longest such prefix. -/
theorem resolve_loop_eq_some (apiPath siteUrl : List Char)
    (registry : List (List Char)) (original : List (List Char)) (m : Nat)
    (h : ∃ k, 1 ≤ k ∧ k ≤ m ∧
      pagePresent registry (urlFor apiPath (original.take k)) = true) :
    ∃ k, 1 ≤ k ∧ k ≤ m ∧
      pagePresent registry (urlFor apiPath (original.take k)) = true ∧
      (∀ j, k < j → j ≤ m →
        pagePresent registry (urlFor apiPath (original.take j)) = false) ∧
      resolve_loop apiPath siteUrl registry original m
        = some (mkResolved apiPath siteUrl original k) := by
  induction m with
  | zero =>
    obtain ⟨k, h1, h2, _⟩ := h
    exact absurd (Nat.le_trans h1 h2) (by omega)
  | succ n ih =>
    by_cases hp : pagePresent registry (urlFor apiPath (original.take (n + 1))) = true
    · refine ⟨n + 1, Nat.succ_le_succ (Nat.zero_le n), Nat.le_refl _, hp, ?_, ?_⟩
      · intro j hj1 hj2
        omega
      · simp only [resolve_loop, hp, if_true]
    · obtain ⟨k, h1, h2, h3⟩ := h
      have hk : k ≤ n := by
        by_contra hgt
        have hkn : k = n + 1 := by omega
        subst hkn
        exact hp h3
      obtain ⟨k', hk1, hk2, hk3, hk4, hk5⟩ := ih ⟨k, h1, hk, h3⟩
      refine ⟨k', hk1, Nat.le_succ_of_le hk2, hk3, ?_, ?_⟩
      · intro j hj1 hj2
        rcases Nat.lt_or_ge j (n + 1) with hlt | hge
        · exact hk4 j hj1 (by omega)
        · have : j = n + 1 := by omega
          rw [this]
          simpa using hp
      · have hpf : pagePresent registry (urlFor apiPath (original.take (n + 1))) = false := by
          simpa using hp
        simp only [resolve_loop, hpf]
        exact hk5

/-- C1.  Longest-prefix resolution: whenever some nonempty prefix of the
segment sequence of the qualified name has its page URL
`api_path/<segments joined with '/'>/` in the registry, `_resolve_link`
returns the site path for the longest such prefix, with `'#'` plus the
dropped segments rejoined with `'.'` appended exactly when segments were
dropped (so no anchor when the full name is present), no error is logged,
and the longest prefix is the one found by stripping trailing segments one
at a time. -/
theorem resolve_link_longest (apiPath siteUrl : List Char)
    (registry : List (List Char)) (compress : Bool)
    (root_packages : List (List Char)) (qualified_name : List Char)
    (h : ∃ k, 1 ≤ k ∧ k ≤ (resolve_qname compress root_packages qualified_name).length ∧
      pagePresent registry (urlFor apiPath
        ((resolve_qname compress root_packages qualified_name).take k)) = true) :
    ∃ k, 1 ≤ k ∧ k ≤ (resolve_qname compress root_packages qualified_name).length ∧
      pagePresent registry (urlFor apiPath
        ((resolve_qname compress root_packages qualified_name).take k)) = true ∧
      (∀ j, k < j → j ≤ (resolve_qname compress root_packages qualified_name).length →
        pagePresent registry (urlFor apiPath
          ((resolve_qname compress root_packages qualified_name).take j)) = false) ∧
      resolve_link apiPath siteUrl registry compress root_packages qualified_name
        = (mkResolved apiPath siteUrl
            (resolve_qname compress root_packages qualified_name) k, []) := by
  obtain ⟨k, h1, h2, h3, h4, h5⟩ :=
    resolve_loop_eq_some apiPath siteUrl registry
      (resolve_qname compress root_packages qualified_name)
      (resolve_qname compress root_packages qualified_name).length h
  refine ⟨k, h1, h2, h3, h4, ?_⟩
  simp only [resolve_link, h5]

/-- Witness for C1: end-to-end scenario, `pkg.mod.Class.method` against a
registry containing `references/pkg/mod/` resolves to
`references/pkg/mod/#Class.method`. -/
theorem resolve_link_longest_witness :
    resolve_link apiPathEx [] registryEx false [] qnameEx
      = ("references/pkg/mod/#Class.method".toList, []) := by
  have h := resolve_link_longest apiPathEx [] registryEx false [] qnameEx
    ⟨2, by decide, by decide, by decide⟩
  decide

/-- C2.  Resolution failure is non-fatal: when no nonempty prefix of the
segment sequence is present in the registry, `_resolve_link` returns the
original input unchanged and logs exactly one error naming that qualified
name (and never raises: the embedding is a total function).  The empty
qualified name has segment sequence `[""]`, whose only candidate URL
`api_path//` is absent from any well-formed registry, so it fails. -/
theorem resolve_link_unresolved (apiPath siteUrl : List Char)
    (registry : List (List Char)) (compress : Bool)
    (root_packages : List (List Char)) (qualified_name : List Char)
    (h : ∀ k, 1 ≤ k → k ≤ (resolve_qname compress root_packages qualified_name).length →
      pagePresent registry (urlFor apiPath
        ((resolve_qname compress root_packages qualified_name).take k)) = false) :
    resolve_link apiPath siteUrl registry compress root_packages qualified_name
      = (qualified_name, [qualified_name]) := by
  simp only [resolve_link,
    resolve_loop_eq_none apiPath siteUrl registry
      (resolve_qname compress root_packages qualified_name)
      (resolve_qname compress root_packages qualified_name).length h]

/-- Witness for C2: `nosuch.mod` has no registered prefix, so resolution
returns it unchanged and logs exactly one error naming it. -/
theorem resolve_link_unresolved_witness :
    resolve_link apiPathEx [] registryEx false [] "nosuch.mod".toList
      = ("nosuch.mod".toList, ["nosuch.mod".toList]) := by
  refine resolve_link_unresolved apiPathEx [] registryEx false [] "nosuch.mod".toList ?_
  intro k h1 h2
  have hk : k = 1 ∨ k = 2 := by
    have : (resolve_qname false [] "nosuch.mod".toList).length = 2 := by decide
    omega
  rcases hk with hk | hk <;> subst hk <;> decide

-- Lemmas about Python-style string replacement.

/-- A list is a prefix (in the `List.isPrefixOf` sense) of itself followed by
anything. -/
theorem isPrefixOf_append_self (l t : List Char) : l.isPrefixOf (l ++ t) = true := by
  induction l with
  | nil => cases t <;> rfl
  | cons c cs ih => simp [List.isPrefixOf, ih]

/-- Replacement leaves a string without occurrences of the pattern unchanged. -/
theorem replaceGo_of_not_contains (pat rep : List Char) (_hpat : pat ≠ []) :
    ∀ fuel s, containsSub pat s = false → s.length ≤ fuel →
      replaceGo pat rep fuel s = s := by
  intro fuel
  induction fuel with
  | zero => intro s _ _; rfl
  | succ n ih =>
    intro s hc hl
    cases s with
    | nil => rfl
    | cons c cs =>
      have hsplit : pat.isPrefixOf (c :: cs) = false ∧ containsSub pat cs = false := by
        simpa [containsSub, Bool.or_eq_false_iff] using hc
      have hcond : ¬(pat ≠ [] ∧ pat.isPrefixOf (c :: cs) = true) := by
        intro hand
        rw [hsplit.1] at hand
        exact Bool.false_ne_true hand.2
      simp only [replaceGo, if_neg hcond]
      have hlen : cs.length ≤ n := by simpa using hl
      rw [ih cs hsplit.2 hlen]

/-- Replacing a pattern that sits at the front of the string, and occurs
nowhere in the remainder, rewrites exactly that front occurrence. -/
theorem replaceAll_front (pat rep t : List Char) (hpat : pat ≠ [])
    (hc : containsSub pat t = false) :
    replaceAll pat rep (pat ++ t) = rep ++ t := by
  obtain ⟨p, ps, rfl⟩ := List.exists_cons_of_ne_nil hpat
  have hlen : ((p :: ps) ++ t).length = (ps.length + t.length) + 1 := by
    simp [List.length_append]
  have hpre : (p :: ps).isPrefixOf (p :: (ps ++ t)) = true := by
    rw [← List.cons_append]
    exact isPrefixOf_append_self (p :: ps) t
  have hdrop : (p :: (ps ++ t)).drop (p :: ps).length = t := by
    rw [← List.cons_append]
    exact List.drop_left (p :: ps) t
  rw [replaceAll, hlen]
  show replaceGo (p :: ps) rep ((ps.length + t.length) + 1) (p :: (ps ++ t)) = rep ++ t
  simp only [replaceGo]
  rw [if_pos ⟨hpat, hpre⟩, hdrop,
    replaceGo_of_not_contains (p :: ps) rep hpat (ps.length + t.length) t hc
      (Nat.le_add_left _ _)]

/-- Replacement of a single-character pattern by a single character is a
character map. -/
theorem replaceGo_single (c d : Char) :
    ∀ fuel s, s.length ≤ fuel →
      replaceGo [c] [d] fuel s = s.map (fun x => if x = c then d else x) := by
  intro fuel
  induction fuel with
  | zero =>
    intro s hl
    have hs : s = [] := List.eq_nil_of_length_eq_zero (Nat.le_zero.mp hl)
    subst hs
    rfl
  | succ n ih =>
    intro s hl
    cases s with
    | nil => rfl
    | cons x xs =>
      have hlen : xs.length ≤ n := by simpa using hl
      have hpre : [c].isPrefixOf (x :: xs) = (x == c) := by
        simp [List.isPrefixOf, BEq.comm]
      by_cases hx : x = c
      · have hcond : ([c] : List Char) ≠ [] ∧ [c].isPrefixOf (x :: xs) = true := by
          refine ⟨by simp, ?_⟩
          rw [hpre]
          exact beq_iff_eq.mpr hx
        simp only [replaceGo, if_pos hcond]
        simp [ih xs hlen, hx]
      · have hcond : ¬(([c] : List Char) ≠ [] ∧ [c].isPrefixOf (x :: xs) = true) := by
          intro hand
          rw [hpre] at hand
          exact hx (beq_iff_eq.mp hand.2)
        simp only [replaceGo, if_neg hcond]
        simp [ih xs hlen, hx]

/-- `dotToSlash` is the character map sending `.` to `/`. -/
theorem dotToSlash_eq_map (s : List Char) :
    dotToSlash s = s.map (fun x => if x = '.' then '/' else x) :=
  replaceGo_single '.' '/' s.length s (Nat.le_refl _)

/-- `splitOnChar` never returns the empty list of pieces. -/
theorem splitOnChar_ne_nil (sep : Char) (s : List Char) : splitOnChar sep s ≠ [] := by
  cases s with
  | nil => simp [splitOnChar]
  | cons c cs =>
    rw [splitOnChar]
    cases h : splitOnChar sep cs with
    | nil => simp
    | cons r rs => by_cases hc : c = sep <;> simp [hc]

/-- Splitting a string that begins with a separator-free chunk followed by the
separator peels off exactly that chunk. -/
theorem splitOnChar_chunk (sep : Char) (rp x : List Char) (h : sep ∉ rp) :
    splitOnChar sep (rp ++ sep :: x) = rp :: splitOnChar sep x := by
  induction rp with
  | nil =>
    rw [List.nil_append, splitOnChar]
    cases hx : splitOnChar sep x with
    | nil => exact absurd hx (splitOnChar_ne_nil sep x)
    | cons r rs => simp
  | cons c cs ih =>
    have hc : c ≠ sep := fun hcs => h (hcs ▸ List.mem_cons_self c cs)
    have hcs : sep ∉ cs := fun hmem => h (List.mem_cons_of_mem c hmem)
    rw [List.cons_append, splitOnChar, ih hcs]
    simp [hc]

/-- C8 counterexample.  Compression is a global substring replacement, not a
prefix-only alias: for the input `x.a.b.c`, whose dotted root package `a.b`
occurs in the middle and not as a prefix, `_resolve_qname` still collapses
it, yielding `("x", "a.b", "c")` instead of the untouched
`("x", "a", "b", "c")` that a prefix-only collapse would produce. -/
theorem compression_counterexample :
    resolve_qname true ["a.b".toList] "x.a.b.c".toList
      = ["x".toList, "a.b".toList, "c".toList] ∧
    resolve_qname true ["a.b".toList] "x.a.b.c".toList
      ≠ ["x".toList, "a".toList, "b".toList, "c".toList] :=
  ⟨by decide, by decide⟩

/-- C8 amended.  Compression replaces every occurrence of the root package's
slash-joined path inside the slash-joined qualified name with the dotted
root-package name — a global substring replacement, not one restricted to
the prefix position.  In particular a root package that occurs as a dotted
prefix (and whose slash form does not reoccur in the remainder) is collapsed
to a single literal segment that survives splitting: compressing
`rp ++ "." ++ rest` yields the segments `rp :: segments-of-rest`. -/
theorem compression_amended (rp rest : List Char) (hrp : rp ≠ [])
    (hsl : '/' ∉ rp)
    (hc : containsSub (dotToSlash rp) ('/' :: dotToSlash rest) = false) :
    resolve_qname true [rp] (rp ++ '.' :: rest)
      = rp :: splitOnChar '/' (dotToSlash rest) := by
  have hq : dotToSlash (rp ++ '.' :: rest)
      = dotToSlash rp ++ '/' :: dotToSlash rest := by
    simp [dotToSlash_eq_map]
  have hpat : dotToSlash rp ≠ [] := by
    rw [dotToSlash_eq_map]
    simp only [ne_eq, List.map_eq_nil_iff]
    exact hrp
  show splitOnChar '/'
      (replaceAll (dotToSlash rp) rp (dotToSlash (rp ++ '.' :: rest)))
    = rp :: splitOnChar '/' (dotToSlash rest)
  rw [hq, replaceAll_front (dotToSlash rp) rp ('/' :: dotToSlash rest) hpat hc,
    splitOnChar_chunk '/' rp (dotToSlash rest) hsl]

/-- Witness for C8 amended: compressing `a.b.c` under root package `a.b`
yields the literal segment `a.b` followed by `c`. -/
theorem compression_amended_witness :
    resolve_qname true ["a.b".toList] ("a.b".toList ++ '.' :: "c".toList)
      = "a.b".toList :: splitOnChar '/' (dotToSlash "c".toList) :=
  compression_amended "a.b".toList "c".toList (by decide) (by decide) (by decide)

-- The change-staleness tracker.  File modification timestamps (Python
-- floats) are modelled as rationals.

/-- The running-maximum update of `_get_latest_modification_time` and of the
builtin `max`: keep the new value only when it strictly exceeds the
accumulator. -/
def maxStep (a b : ℚ) : ℚ := if a < b then b else a

/-- Embedding of `MkdocsPlugin._get_latest_modification_time`
(mkdocs_plugin.py:121): latest modification time over the files found under
one path, starting from `0.0`.  The directory walk is modelled by the list
of the file timestamps it yields. -/
def get_latest_modification_time (fileTimes : List ℚ) : ℚ :=
  fileTimes.foldl maxStep 0

/-- Python `max` over a sequence: `ValueError` (here `none`) on an empty
sequence. -/
def pythonMax : List ℚ → Option ℚ
  | [] => none
  | x :: xs => some (xs.foldl maxStep x)

/-- Embedding of `math.isclose(a, b)` at its default tolerances
`rel_tol=1e-9, abs_tol=0.0`, that is
`abs(a-b) <= max(rel_tol * max(abs(a), abs(b)), abs_tol)`.
The comparison is evaluated exactly by cross-multiplying the fractions:
`abs(a-b) = abs(a.num * b.den - b.num * a.den) / (a.den * b.den)`,
`max(abs(a), abs(b)) = mnum / mden` (the larger fraction by
cross-multiplication), and the inequality against `mnum / (10^9 * mden)`
clears its positive denominators; the outer `max` with `abs_tol = 0` is the
identity because the relative term is nonnegative. -/
def math_isclose (a b : ℚ) : Bool :=
  let dnum := a.num * (b.den : Int) - b.num * (a.den : Int)
  let absA := a.num.natAbs * b.den
  let absB := b.num.natAbs * a.den
  let mnum := if absA < absB then b.num.natAbs else a.num.natAbs
  let mden := if absA < absB then b.den else a.den
  decide (dnum.natAbs * 1000000000 * mden ≤ mnum * (a.den * b.den))

/-- Embedding of `MkdocsPlugin._check_if_code_changed`
(mkdocs_plugin.py:109), with each tracked module path represented by the
list of its file timestamps.  The result pairs the returned flag with the
new class-level watermark `code_modification_time`; `none` models the
uncaught `ValueError` that `max` raises on an empty path list. -/
def check_if_code_changed (wm : ℚ) (pathFiles : List (List ℚ)) :
    Option (Bool × ℚ) :=
  match pythonMax (pathFiles.map get_latest_modification_time) with
  | none => none
  | some latest => some ((decide (wm < latest) && ! math_isclose latest wm), latest)

-- Folding `maxStep` computes a maximum.

theorem foldl_maxStep_le (l : List ℚ) (acc : ℚ) : acc ≤ l.foldl maxStep acc := by
  induction l generalizing acc with
  | nil => exact le_refl acc
  | cons x xs ih =>
    refine le_trans ?_ (ih (maxStep acc x))
    unfold maxStep
    split
    · exact le_of_lt (by assumption)
    · exact le_refl acc

theorem foldl_maxStep_ub (l : List ℚ) (acc : ℚ) :
    ∀ t ∈ l, t ≤ l.foldl maxStep acc := by
  induction l generalizing acc with
  | nil => intro t ht; exact absurd ht (List.not_mem_nil t)
  | cons x xs ih =>
    intro t ht
    rcases List.mem_cons.mp ht with rfl | hmem
    · refine le_trans ?_ (foldl_maxStep_le xs (maxStep acc t))
      unfold maxStep
      split
      · exact le_refl t
      · exact le_of_not_lt (by assumption)
    · exact ih (maxStep acc x) t hmem

theorem foldl_maxStep_mem (l : List ℚ) (acc : ℚ) :
    l.foldl maxStep acc = acc ∨ l.foldl maxStep acc ∈ l := by
  induction l generalizing acc with
  | nil => exact Or.inl rfl
  | cons x xs ih =>
    rcases ih (maxStep acc x) with h | h
    · rw [List.foldl_cons, h]
      unfold maxStep
      split
      · exact Or.inr (List.mem_cons_self x xs)
      · exact Or.inl rfl
    · exact Or.inr (List.mem_cons_of_mem x (by simpa using h))

/-- Full behaviour of `_check_if_code_changed` on a nonempty path list: the
returned watermark is the maximum timestamp observed (at least `0`, an upper
bound of every observed timestamp, and itself observed unless it is the
`0.0` start value), and the flag is set exactly when that maximum strictly
exceeds the old watermark and is not `math.isclose` to it. -/
theorem check_if_code_changed_spec (wm : ℚ) (paths : List (List ℚ))
    (hne : paths ≠ []) :
    ∃ M stale, check_if_code_changed wm paths = some (stale, M)
      ∧ (stale = true ↔ (wm < M ∧ math_isclose M wm = false))
      ∧ 0 ≤ M
      ∧ (∀ fs, fs ∈ paths → ∀ t, t ∈ fs → t ≤ M)
      ∧ (M = 0 ∨ ∃ fs, fs ∈ paths ∧ M ∈ fs) := by
  obtain ⟨p0, ps, rfl⟩ := List.exists_cons_of_ne_nil hne
  refine ⟨(ps.map get_latest_modification_time).foldl maxStep
      (get_latest_modification_time p0),
    _, rfl, ?_, ?_, ?_, ?_⟩
  · simp [Bool.and_eq_true, decide_eq_true_eq, Bool.not_eq_true']
  · exact le_trans (foldl_maxStep_le p0 0)
      (foldl_maxStep_le (ps.map get_latest_modification_time)
        (get_latest_modification_time p0))
  · intro fs hfs t ht
    rcases List.mem_cons.mp hfs with rfl | hmem
    · exact le_trans (foldl_maxStep_ub fs 0 t ht)
        (foldl_maxStep_le (ps.map get_latest_modification_time)
          (get_latest_modification_time fs))
    · exact le_trans (foldl_maxStep_ub fs 0 t ht)
        (foldl_maxStep_ub (ps.map get_latest_modification_time)
          (get_latest_modification_time p0)
          (get_latest_modification_time fs) (List.mem_map_of_mem _ hmem))
  · rcases foldl_maxStep_mem (ps.map get_latest_modification_time)
      (get_latest_modification_time p0) with h | h
    · rw [h]
      rcases foldl_maxStep_mem p0 0 with h0 | h0
      · exact Or.inl h0
      · exact Or.inr ⟨p0, List.mem_cons_self p0 ps, h0⟩
    · obtain ⟨fs, hfs, heq⟩ := List.mem_map.mp h
      rw [← heq]
      rcases foldl_maxStep_mem fs 0 with h0 | h0
      · exact Or.inl h0
      · exact Or.inr ⟨fs, List.mem_cons_of_mem p0 hfs, h0⟩

/-- C5.  Staleness decision: for a nonempty tracked path list the check
reports stale exactly when the maximum observed file-modification time `M`
(characterised as an upper bound of all observed timestamps, itself observed
unless it is the `0.0` start value) strictly exceeds the previous watermark
and is not `math.isclose` to it, and the stored watermark becomes `M`
regardless of the flag. -/
theorem staleness_decision (wm : ℚ) (paths : List (List ℚ)) (hne : paths ≠ []) :
    ∃ M stale, check_if_code_changed wm paths = some (stale, M)
      ∧ (stale = true ↔ (wm < M ∧ math_isclose M wm = false))
      ∧ 0 ≤ M
      ∧ (∀ fs, fs ∈ paths → ∀ t, t ∈ fs → t ≤ M)
      ∧ (M = 0 ∨ ∃ fs, fs ∈ paths ∧ M ∈ fs) :=
  check_if_code_changed_spec wm paths hne

/-- Witness for C5 (end-to-end scenario 4): watermark `1000`, one tracked
path with files at `999` and `1001`: stale, and the watermark advances to
`1001`. -/
theorem staleness_decision_witness :
    check_if_code_changed 1000 [[999, 1001]] = some (true, 1001) := by
  have h := staleness_decision 1000 [[999, 1001]] (by decide)
  decide

/-- C7 counterexample.  The watermark is not monotone: with watermark `5`
and a newly observed maximum of `3`, the check stores `3`, strictly below
the previous watermark. -/
theorem watermark_counterexample :
    check_if_code_changed 5 [[3]] = some (false, 3) ∧ (3 : ℚ) < 5 :=
  ⟨by decide, by decide⟩

/-- C7 amended.  The watermark is set to the newly observed maximum on every
check, whether or not the check reported stale; consequently it never
decreases as long as some observed file timestamp is at least the current
watermark (in particular for a fixed file set whose timestamps do not move
backwards), but it does decrease whenever every observed timestamp drops
strictly below the current watermark. -/
theorem watermark_amended (wm : ℚ) (paths : List (List ℚ)) (stale : Bool)
    (wm' : ℚ) (fs : List ℚ) (t : ℚ)
    (heq : check_if_code_changed wm paths = some (stale, wm'))
    (hfs : fs ∈ paths) (ht : t ∈ fs) (hwt : wm ≤ t) : wm ≤ wm' := by
  obtain ⟨M, stale', heq', _, _, hub, _⟩ :=
    check_if_code_changed_spec wm paths (List.ne_nil_of_mem hfs)
  rw [heq] at heq'
  have hpair := Option.some.inj heq'
  have hM : wm' = M := congrArg Prod.snd hpair
  exact le_trans (le_trans hwt (hub fs hfs t ht)) hM.ge

/-- Witness for C7 amended: watermark `0`, observed timestamp `2 ≥ 0`, so the
new watermark `2` is no smaller. -/
theorem watermark_amended_witness :
    check_if_code_changed 0 [[2]] = some (true, 2) ∧ (0 : ℚ) ≤ 2 :=
  ⟨by decide,
    watermark_amended 0 [[2]] true 2 [2] 2 (by decide) (by decide) (by decide)
      (by decide)⟩

-- The tracked-module path lookup feeding the staleness check.

/-- The list comprehension
`[extract_module(m).module.__path__[0] for m in module_names]` of
`_get_module_path`, with `extract_module` modelled by a function returning
either a path or an `ExtractError`.  Evaluation is left to right and the
first raised error aborts the whole comprehension. -/
def collectModulePaths (extract : List Char → Except Unit (List Char)) :
    List (List Char) → Except Unit (List (List Char))
  | [] => Except.ok []
  | m :: ms =>
    match extract m with
    | Except.error e => Except.error e
    | Except.ok p =>
      match collectModulePaths extract ms with
      | Except.error e => Except.error e
      | Except.ok ps => Except.ok (p :: ps)

/-- Embedding of `MkdocsPlugin._get_module_path` (mkdocs_plugin.py:131):
an empty module list yields `[]` silently; otherwise the whole comprehension
runs under one `try`, so a single `ExtractError` logs one error and returns
`[]`, dropping every path.  The second component counts logged errors. -/
def get_module_path (extract : List Char → Except Unit (List Char))
    (module_names : List (List Char)) : List (List Char) × Nat :=
  match module_names with
  | [] => ([], 0)
  | _ :: _ =>
    match collectModulePaths extract module_names with
    | Except.ok ps => (ps, 0)
    | Except.error _ => ([], 1)

/-- `_check_if_code_changed` composed with `_get_module_path`
(mkdocs_plugin.py:109-112): the module names are resolved to paths, each
path is walked (`filesOf` gives the timestamps seen under a path), and the
staleness check runs on the result.  The first component is `none` when
`max()` raises `ValueError` on an empty path list; the second counts logged
errors. -/
def check_with_module_lookup (extract : List Char → Except Unit (List Char))
    (filesOf : List Char → List ℚ) (wm : ℚ)
    (modules : List (List Char)) : Option (Bool × ℚ) × Nat :=
  (check_if_code_changed wm ((get_module_path extract modules).1.map filesOf),
   (get_module_path extract modules).2)

/-- A failing module anywhere in the list makes the whole comprehension
raise. -/
theorem collectModulePaths_error (extract : List Char → Except Unit (List Char)) :
    ∀ modules, (∃ m, m ∈ modules ∧ ∃ e, extract m = Except.error e) →
      ∃ e, collectModulePaths extract modules = Except.error e := by
  intro modules
  induction modules with
  | nil =>
    intro h
    obtain ⟨m, hm, _⟩ := h
    exact absurd hm (List.not_mem_nil m)
  | cons m0 ms ih =>
    intro h
    obtain ⟨m, hm, e, he⟩ := h
    rcases List.mem_cons.mp hm with rfl | hmem
    · exact ⟨e, by simp [collectModulePaths, he]⟩
    · cases hx : extract m0 with
      | error e0 => exact ⟨e0, by simp [collectModulePaths, hx]⟩
      | ok p =>
        obtain ⟨e', he'⟩ := ih ⟨m, hmem, e, he⟩
        exact ⟨e', by simp [collectModulePaths, hx, he']⟩

/-- Extraction outcome fixture: module `good` resolves to a path, any other
module name raises `ExtractError`. -/
def extractEx : List Char → Except Unit (List Char) := fun m =>
  if m = "good".toList then Except.ok "gpath".toList else Except.error ()

/-- C6 counterexample.  With modules `[good, bad]`, where `good` resolves
and `bad` raises, `_get_module_path` drops the resolvable path too and
returns the empty list (after logging once), and the subsequent staleness
check raises `ValueError` (`max()` of an empty sequence) instead of treating
the build as stale. -/
theorem tracker_failure_counterexample :
    extractEx "good".toList = Except.ok "gpath".toList
    ∧ get_module_path extractEx ["good".toList, "bad".toList] = ([], 1)
    ∧ check_with_module_lookup extractEx (fun _ => [5]) 0
        ["good".toList, "bad".toList] = (none, 1) :=
  ⟨rfl, rfl, rfl⟩

/-- C6 amended.  When any tracked module fails to resolve, the error is
logged once and every module path — including the resolvable ones — is
excluded; the path list is then empty and the staleness check raises
(`none`), aborting instead of forcing regeneration. -/
theorem tracker_failure_amended (extract : List Char → Except Unit (List Char))
    (filesOf : List Char → List ℚ) (wm : ℚ) (modules : List (List Char))
    (h : ∃ m, m ∈ modules ∧ ∃ e, extract m = Except.error e) :
    get_module_path extract modules = ([], 1)
    ∧ check_with_module_lookup extract filesOf wm modules = (none, 1) := by
  obtain ⟨e, he⟩ := collectModulePaths_error extract modules h
  obtain ⟨m, hm, _⟩ := h
  obtain ⟨m0, ms, rfl⟩ := List.exists_cons_of_ne_nil (List.ne_nil_of_mem hm)
  have hg : get_module_path extract (m0 :: ms) = ([], 1) := by
    simp [get_module_path, he]
  refine ⟨hg, ?_⟩
  simp [check_with_module_lookup, hg, check_if_code_changed, pythonMax]

/-- Witness for C6 amended, instantiated at the `[good, bad]` fixture. -/
theorem tracker_failure_amended_witness :
    get_module_path extractEx ["good".toList, "bad".toList] = ([], 1)
    ∧ check_with_module_lookup extractEx (fun _ => []) 3
        ["good".toList, "bad".toList] = (none, 1) :=
  tracker_failure_amended extractEx (fun _ => []) 3
    ["good".toList, "bad".toList]
    ⟨"bad".toList, by decide, (), rfl⟩

-- The navigation splicer: converting the generated reference listing into
-- a navigation section.

/-- The nested reference listing consumed by `_convert_to_section`
(`MkDocsConfigNav`): an ordered sequence of single-key mappings whose value
is either a page path string (a leaf) or a nested listing (a group).  The
code reads each mapping through `tuple(ref.items())[0]`, so a mapping is
represented by that first label/value pair. -/
inductive NavListing : Type where
  | nil : NavListing
  | consPage (label : List Char) (path : List Char) (rest : NavListing) : NavListing
  | consGroup (label : List Char) (sub : NavListing) (rest : NavListing) : NavListing

/-- A materialised navigation node: `Page(title, file, config)` or
`Section(title, children)`, with the file handle abstracted to an
identifier. -/
inductive SItem : Type where
  | pageItem (title : List Char) (file : Nat) : SItem
  | sectionItem (title : List Char) (children : List SItem) : SItem

/-- Dictionary lookup in `files.src_paths` (path → file), `none` meaning the
`KeyError` (a `LookupError`) that `files.src_paths[value]` raises. -/
def lookupSrc : List (List Char × Nat) → List Char → Option Nat
  | [], _ => none
  | (p, f) :: rest, path => if p = path then some f else lookupSrc rest path

/-- The child-building loop of `_convert_to_section` (mkdocs_plugin.py:189):
each leaf becomes a `Page` via `files.src_paths[value]` (raising `KeyError`
when the path is unknown), each nested listing recurses into a `Section`. -/
def convertListing (src : List (List Char × Nat)) :
    NavListing → Except Unit (List SItem)
  | NavListing.nil => Except.ok []
  | NavListing.consPage label path rest =>
    match lookupSrc src path with
    | none => Except.error ()
    | some f =>
      match convertListing src rest with
      | Except.error e => Except.error e
      | Except.ok items => Except.ok (SItem.pageItem label f :: items)
  | NavListing.consGroup label sub rest =>
    match convertListing src sub with
    | Except.error e => Except.error e
    | Except.ok cs =>
      match convertListing src rest with
      | Except.error e => Except.error e
      | Except.ok items => Except.ok (SItem.sectionItem label cs :: items)

/-- Embedding of `MkdocsPlugin._convert_to_section` (mkdocs_plugin.py:186). -/
def convert_to_section (src : List (List Char × Nat)) (title : List Char)
    (refs : NavListing) : Except Unit SItem :=
  match convertListing src refs with
  | Except.error e => Except.error e
  | Except.ok children => Except.ok (SItem.sectionItem title children)

/-- All page paths named by the leaves of a listing. -/
def leafPaths : NavListing → List (List Char)
  | NavListing.nil => []
  | NavListing.consPage _ path rest => path :: leafPaths rest
  | NavListing.consGroup _ sub rest => leafPaths sub ++ leafPaths rest

/-- The child-building loop succeeds exactly when every listed page path is
present in the registry. -/
theorem convertListing_ok_iff (src : List (List Char × Nat)) :
    ∀ refs, (∃ items, convertListing src refs = Except.ok items)
      ↔ (∀ p, p ∈ leafPaths refs → lookupSrc src p ≠ none) := by
  intro refs
  induction refs with
  | nil => simp [convertListing, leafPaths]
  | consPage label path rest ih =>
    cases hl : lookupSrc src path with
    | none =>
      simp only [convertListing, hl, leafPaths]
      constructor
      · rintro ⟨items, hitems⟩
        exact Except.noConfusion hitems
      · intro hall
        exact absurd hl (hall path (List.mem_cons_self path (leafPaths rest)))
    | some f =>
      cases hr : convertListing src rest with
      | error e =>
        have hfail : ¬(∀ p, p ∈ leafPaths rest → lookupSrc src p ≠ none) := by
          intro hall
          obtain ⟨items, hitems⟩ := ih.mpr hall
          rw [hr] at hitems
          exact Except.noConfusion hitems
        simp only [convertListing, hl, hr, leafPaths]
        constructor
        · rintro ⟨items, hitems⟩
          exact Except.noConfusion hitems
        · intro hall
          exact absurd (fun p hp => hall p (List.mem_cons_of_mem path hp)) hfail
      | ok items =>
        simp only [convertListing, hl, hr, leafPaths]
        constructor
        · intro _ p hp
          rcases List.mem_cons.mp hp with rfl | hmem
          · rw [hl]
            exact fun hsome => Option.noConfusion hsome
          · exact (ih.mp ⟨items, hr⟩) p hmem
        · intro _
          exact ⟨SItem.pageItem label f :: items, rfl⟩
  | consGroup label sub rest ihs ihr =>
    cases hs : convertListing src sub with
    | error e =>
      have hfail : ¬(∀ p, p ∈ leafPaths sub → lookupSrc src p ≠ none) := by
        intro hall
        obtain ⟨cs, hcs⟩ := ihs.mpr hall
        rw [hs] at hcs
        exact Except.noConfusion hcs
      simp only [convertListing, hs, leafPaths]
      constructor
      · rintro ⟨items, hitems⟩
        exact Except.noConfusion hitems
      · intro hall
        exact absurd (fun p hp => hall p (List.mem_append.mpr (Or.inl hp))) hfail
    | ok cs =>
      cases hr : convertListing src rest with
      | error e =>
        have hfail : ¬(∀ p, p ∈ leafPaths rest → lookupSrc src p ≠ none) := by
          intro hall
          obtain ⟨items, hitems⟩ := ihr.mpr hall
          rw [hr] at hitems
          exact Except.noConfusion hitems
        simp only [convertListing, hs, hr, leafPaths]
        constructor
        · rintro ⟨items, hitems⟩
          exact Except.noConfusion hitems
        · intro hall
          exact absurd (fun p hp => hall p (List.mem_append.mpr (Or.inr hp))) hfail
      | ok items =>
        simp only [convertListing, hs, hr, leafPaths]
        constructor
        · intro _ p hp
          rcases List.mem_append.mp hp with hmem | hmem
          · exact (ihs.mp ⟨cs, hs⟩) p hmem
          · exact (ihr.mp ⟨items, hr⟩) p hmem
        · intro _
          exact ⟨SItem.sectionItem label cs :: items, rfl⟩

/-- C3.  Listing/registry desynchronisation is a hard error: building the
reference section fails with the `KeyError` (a `LookupError`) whenever some
leaf of the listing names a page path absent from `files.src_paths`, and
succeeds (returns a section, aborting nothing) whenever every listed path is
present. -/
theorem section_desync_policy (src : List (List Char × Nat)) (title : List Char)
    (refs : NavListing) :
    ((∃ p, p ∈ leafPaths refs ∧ lookupSrc src p = none) →
      ∃ e, convert_to_section src title refs = Except.error e)
    ∧ ((∀ p, p ∈ leafPaths refs → lookupSrc src p ≠ none) →
      ∃ s, convert_to_section src title refs = Except.ok s) := by
  constructor
  · rintro ⟨p, hp, hnone⟩
    cases hconv : convertListing src refs with
    | error e =>
      exact ⟨e, by simp [convert_to_section, hconv]⟩
    | ok items =>
      exact absurd hnone ((convertListing_ok_iff src refs).mp ⟨items, hconv⟩ p hp)
  · intro hall
    obtain ⟨items, hitems⟩ := (convertListing_ok_iff src refs).mpr hall
    exact ⟨SItem.sectionItem title items, by simp [convert_to_section, hitems]⟩

/-- Registry fixture for the navigation scenarios. -/
def srcEx : List (List Char × Nat) :=
  [("references/pkg/index.md".toList, 0), ("references/pkg/sub/item.md".toList, 1)]

/-- Listing fixture matching `srcEx` (end-to-end scenario 2). -/
def refsOkEx : NavListing :=
  NavListing.consPage "index".toList "references/pkg/index.md".toList
    (NavListing.consGroup "sub".toList
      (NavListing.consPage "item".toList "references/pkg/sub/item.md".toList
        NavListing.nil)
      NavListing.nil)

/-- Listing fixture naming a page path absent from `srcEx`. -/
def refsMissingEx : NavListing :=
  NavListing.consPage "index".toList "references/missing.md".toList NavListing.nil

/-- Witness for C3: the desynchronised listing fails, the synchronised one
succeeds. -/
theorem section_desync_policy_witness :
    (∃ e, convert_to_section srcEx "References".toList refsMissingEx
      = Except.error e)
    ∧ (∃ s, convert_to_section srcEx "References".toList refsOkEx
      = Except.ok s) :=
  ⟨(section_desync_policy srcEx "References".toList refsMissingEx).1
      ⟨"references/missing.md".toList, by decide, by decide⟩,
    (section_desync_policy srcEx "References".toList refsOkEx).2 (by decide)⟩

-- Locating the reference section's insertion point in the navigation.

/-- A top-level navigation item as seen by
`_get_navigation_api_item_title_and_position`: its `title` (pages may have
`None`), its `url` when the item has one (`hasattr(item, "url")` — sections
have none), and its file name used by the `item.file.name.title()`
fallback. -/
structure NavItem where
  title : Option (List Char)
  url : Option (List Char)
  fileName : List Char
deriving DecidableEq

/-- The literal `REFERENCE_PLACEHOLDER = "$references"` sentinel. -/
def refPlaceholder : List Char := "$references".toList

/-- The match condition of the reverse scan (mkdocs_plugin.py:172): the
item's title equals the configured reference title, or the item has a `url`
equal to the placeholder sentinel. -/
def matchesRef (refTitle : List Char) (it : NavItem) : Bool :=
  decide (it.title = some refTitle) || decide (it.url = some refPlaceholder)

/-- Python `str.title()` (ASCII behaviour): the first letter of every
alphabetic run is uppercased, the rest lowercased. -/
def pythonTitleGo : Bool → List Char → List Char
  | _, [] => []
  | prev, c :: cs =>
    if c.isAlpha then
      (if prev then c.toLower else c.toUpper) :: pythonTitleGo true cs
    else
      c :: pythonTitleGo false cs

/-- Python `str.title()`. -/
def pythonTitle (s : List Char) : List Char := pythonTitleGo false s

/-- The effective title used by the alphabetical scan
(`nav.items[idx].title or nav.items[idx].file.name.title()`): a falsy title
(`None` or the empty string) falls back to the titlecased file name. -/
def effTitle (it : NavItem) : List Char :=
  match it.title with
  | some t => if t = [] then pythonTitle it.fileName else t
  | none => pythonTitle it.fileName

/-- Python `<` on strings: lexicographic comparison by code point. -/
def pyStrLt : List Char → List Char → Bool
  | [], [] => false
  | [], _ :: _ => true
  | _ :: _, [] => false
  | a :: as, b :: bs => if a < b then true else if a = b then pyStrLt as bs else false

/-- The reverse scan `for idx in range(len(nav.items) - 1, -1, -1)`
(mkdocs_plugin.py:171): index of the last item satisfying `p`, if any. -/
def lastHitIdx (p : NavItem → Bool) : List NavItem → Option Nat
  | [] => none
  | x :: xs =>
    match lastHitIdx p xs with
    | some i => some (i + 1)
    | none => if p x then some 0 else none

/-- The forward scan (mkdocs_plugin.py:178): index of the first item whose
effective title lexicographically exceeds the configured title, or the
number of items when none does. -/
def firstExceedIdx (refTitle : List Char) : List NavItem → Nat
  | [] => 0
  | x :: xs =>
    if pyStrLt refTitle (effTitle x) then 0 else firstExceedIdx refTitle xs + 1

/-- Embedding of `MkdocsPlugin._get_navigation_api_item_title_and_position`
(mkdocs_plugin.py:167): pop the last matching item and return its title and
former index; otherwise return the configured title with the first index
whose title exceeds it alphabetically, or the end.  The returned list is
`nav.items` after the `pop`. -/
def get_navigation_api_item_title_and_position (refTitle : List Char)
    (items : List NavItem) : Option (List Char) × Nat × List NavItem :=
  match lastHitIdx (matchesRef refTitle) items with
  | some i => ((items.get? i).bind NavItem.title, i, items.eraseIdx i)
  | none => (some refTitle, firstExceedIdx refTitle items, items)

-- Specifications of the two scans.

theorem lastHitIdx_none_spec (p : NavItem → Bool) :
    ∀ items, lastHitIdx p items = none →
      ∀ k, ∀ hk : k < items.length, p (items.get ⟨k, hk⟩) = false := by
  intro items
  induction items with
  | nil => intro _ k hk; exact absurd hk (Nat.not_lt_zero k)
  | cons x xs ih =>
    intro h k hk
    rw [lastHitIdx] at h
    cases hxs : lastHitIdx p xs with
    | some i => rw [hxs] at h; exact Option.noConfusion h
    | none =>
      rw [hxs] at h
      by_cases hx : p x = true
      · rw [if_pos hx] at h
        exact Option.noConfusion h
      · cases k with
        | zero => simpa [List.get] using (Bool.not_eq_true (p x)).mp hx
        | succ k' => exact ih hxs k' (Nat.lt_of_succ_lt_succ hk)

theorem lastHitIdx_some_spec (p : NavItem → Bool) :
    ∀ items i, lastHitIdx p items = some i →
      ∃ hi : i < items.length, p (items.get ⟨i, hi⟩) = true
        ∧ ∀ k, ∀ hk : k < items.length, i < k → p (items.get ⟨k, hk⟩) = false := by
  intro items
  induction items with
  | nil => intro i h; exact Option.noConfusion h
  | cons x xs ih =>
    intro i h
    rw [lastHitIdx] at h
    cases hxs : lastHitIdx p xs with
    | some j =>
      rw [hxs] at h
      have hi : i = j + 1 := (Option.some.inj h).symm
      subst hi
      obtain ⟨hj, hpj, hafter⟩ := ih j hxs
      refine ⟨Nat.succ_lt_succ hj, by simpa using hpj, ?_⟩
      intro k hk hlt
      cases k with
      | zero => exact absurd hlt (Nat.not_lt_zero _).elim
      | succ k' =>
        exact hafter k' (Nat.lt_of_succ_lt_succ hk) (Nat.lt_of_succ_lt_succ hlt)
    | none =>
      rw [hxs] at h
      by_cases hx : p x = true
      · rw [if_pos hx] at h
        have hi : i = 0 := (Option.some.inj h).symm
        subst hi
        refine ⟨Nat.succ_pos _, by simpa using hx, ?_⟩
        intro k hk hlt
        cases k with
        | zero => exact absurd hlt (Nat.lt_irrefl 0)
        | succ k' => exact lastHitIdx_none_spec p xs hxs k' (Nat.lt_of_succ_lt_succ hk)
      · rw [if_neg hx] at h
        exact Option.noConfusion h

theorem firstExceedIdx_spec (refTitle : List Char) :
    ∀ items, firstExceedIdx refTitle items ≤ items.length
      ∧ (∀ k, ∀ hk : k < items.length, k < firstExceedIdx refTitle items →
          pyStrLt refTitle (effTitle (items.get ⟨k, hk⟩)) = false)
      ∧ (∀ hj : firstExceedIdx refTitle items < items.length,
          pyStrLt refTitle (effTitle (items.get
            ⟨firstExceedIdx refTitle items, hj⟩)) = true) := by
  intro items
  induction items with
  | nil =>
    refine ⟨Nat.le_refl 0, ?_, ?_⟩
    · intro k hk _; exact absurd hk (Nat.not_lt_zero k)
    · intro hj; exact absurd hj (Nat.not_lt_zero _)
  | cons x xs ih =>
    obtain ⟨ihlen, ihbefore, ihat⟩ := ih
    by_cases hx : pyStrLt refTitle (effTitle x) = true
    · refine ⟨?_, ?_, ?_⟩ <;> simp only [firstExceedIdx, if_pos hx]
      · exact Nat.zero_le _
      · intro k hk hlt; exact absurd hlt (Nat.not_lt_zero k)
      · intro hj; simpa using hx
    · have hxf : pyStrLt refTitle (effTitle x) = false := (Bool.not_eq_true _).mp hx
      refine ⟨?_, ?_, ?_⟩ <;> simp only [firstExceedIdx, if_neg hx]
      · exact Nat.succ_le_succ ihlen
      · intro k hk hlt
        cases k with
        | zero => simpa using hxf
        | succ k' =>
          exact ihbefore k' (Nat.lt_of_succ_lt_succ hk) (Nat.lt_of_succ_lt_succ hlt)
      · intro hj
        simpa using ihat (Nat.lt_of_succ_lt_succ hj)

/-- Navigation fixture `A`. -/
def navAEx : NavItem := ⟨some "A".toList, some "a/".toList, "a.md".toList⟩

/-- Navigation fixture: the pre-declared reference slot, holding the
placeholder sentinel as its url. -/
def navRefPh : NavItem :=
  ⟨some "References".toList, some refPlaceholder, "references.md".toList⟩

/-- Navigation fixture `B`. -/
def navBEx : NavItem := ⟨some "B".toList, some "b/".toList, "b.md".toList⟩

/-- C4.  Insertion-point policy, three tiers tried in order: (1) when some
top-level item matches (title equal to the configured reference title, or
url equal to the `$references` sentinel), the last such item is removed and
its own title and former index are returned; (2) otherwise the configured
title is returned with the index of the first item whose (effective) title
lexicographically exceeds it, every earlier item not exceeding it; (3) when
no item exceeds it, that index is the number of items.  In particular the
tree `[A, References(placeholder), B]` with configured title `References`
yields removal and insertion index `1`. -/
theorem nav_insertion_policy (refTitle : List Char) (items : List NavItem) :
    ((∃ k, ∃ hk : k < items.length, matchesRef refTitle (items.get ⟨k, hk⟩) = true) →
      ∃ i, ∃ hi : i < items.length,
        get_navigation_api_item_title_and_position refTitle items
          = ((items.get ⟨i, hi⟩).title, i, items.eraseIdx i)
        ∧ matchesRef refTitle (items.get ⟨i, hi⟩) = true
        ∧ ∀ k, ∀ hk : k < items.length, i < k →
            matchesRef refTitle (items.get ⟨k, hk⟩) = false)
    ∧ ((∀ k, ∀ hk : k < items.length, matchesRef refTitle (items.get ⟨k, hk⟩) = false) →
      get_navigation_api_item_title_and_position refTitle items
          = (some refTitle, firstExceedIdx refTitle items, items)
        ∧ firstExceedIdx refTitle items ≤ items.length
        ∧ (∀ k, ∀ hk : k < items.length, k < firstExceedIdx refTitle items →
            pyStrLt refTitle (effTitle (items.get ⟨k, hk⟩)) = false)
        ∧ (∀ hj : firstExceedIdx refTitle items < items.length,
            pyStrLt refTitle (effTitle (items.get
              ⟨firstExceedIdx refTitle items, hj⟩)) = true)
        ∧ ((∀ k, ∀ hk : k < items.length,
              pyStrLt refTitle (effTitle (items.get ⟨k, hk⟩)) = false) →
            firstExceedIdx refTitle items = items.length))
    ∧ get_navigation_api_item_title_and_position "References".toList
        [navAEx, navRefPh, navBEx]
        = (some "References".toList, 1, [navAEx, navBEx]) := by
  refine ⟨?_, ?_, by decide⟩
  · rintro ⟨k, hk, hmatch⟩
    cases hlast : lastHitIdx (matchesRef refTitle) items with
    | none =>
      exact absurd hmatch (by rw [lastHitIdx_none_spec _ items hlast k hk]; simp)
    | some i =>
      obtain ⟨hi, hpi, hafter⟩ := lastHitIdx_some_spec _ items i hlast
      refine ⟨i, hi, ?_, hpi, hafter⟩
      rw [get_navigation_api_item_title_and_position, hlast]
      show ((items.get? i).bind NavItem.title, i, items.eraseIdx i)
        = ((items.get ⟨i, hi⟩).title, i, items.eraseIdx i)
      rw [List.get?_eq_get hi]
      rfl
  · intro hall
    have hnone : lastHitIdx (matchesRef refTitle) items = none := by
      cases hlast : lastHitIdx (matchesRef refTitle) items with
      | none => rfl
      | some i =>
        obtain ⟨hi, hpi, _⟩ := lastHitIdx_some_spec _ items i hlast
        exact absurd hpi (by rw [hall i hi]; simp)
    obtain ⟨hlen, hbefore, hat⟩ := firstExceedIdx_spec refTitle items
    refine ⟨?_, hlen, hbefore, hat, ?_⟩
    · rw [get_navigation_api_item_title_and_position, hnone]
    · intro hallf
      rcases Nat.lt_or_ge (firstExceedIdx refTitle items) items.length with hlt | hge
      · exact absurd (hat hlt) (by rw [hallf _ hlt]; simp)
      · exact Nat.le_antisymm hlen hge

/-- Witness for C4 (end-to-end scenario 3): the placeholder slot in
`[A, References(placeholder), B]` is removed and index `1` returned. -/
theorem nav_insertion_policy_witness :
    get_navigation_api_item_title_and_position "References".toList
      [navAEx, navRefPh, navBEx]
      = (some "References".toList, 1, [navAEx, navBEx]) :=
  (nav_insertion_policy "References".toList [navAEx, navRefPh, navBEx]).2.2

-- The HTML anchor scanner and the per-page link rewriter.

/-- Splits the input at the first `>` character: the region before it and
the rest after it, or `none` when there is no `>`.  Within a match of
`HTML_LINK_REGEX`, no element of the pattern can consume a `>`, so a match
starting at `<a` always ends exactly at the first following `>`. -/
def gtSplit : List Char → Option (List Char × List Char)
  | [] => none
  | c :: cs =>
    if c = '>' then some ([], cs)
    else
      match gtSplit cs with
      | some (r, rest) => some (c :: r, rest)
      | none => none

/-- The suffix of the input after the last occurrence of `pat`, or `none`
when `pat` does not occur.  The greedy `[^>]*` before `href=` in
`HTML_LINK_REGEX` makes the regex engine bind `href=` to its last occurrence
inside the tag region (the parts after the href group always match, so
backtracking stops at the latest position). -/
def suffixAfterLast (pat : List Char) : List Char → Option (List Char)
  | [] => if pat = [] then some [] else none
  | c :: cs =>
    match suffixAfterLast pat cs with
    | some t => some t
    | none =>
      if pat.isPrefixOf (c :: cs) = true then some ((c :: cs).drop pat.length)
      else none

/-- The href group of `HTML_LINK_REGEX`: after `href=`, an optional single
quote character (greedy `["']?`), then the maximal run matching
`[^"' >]*`. -/
def hrefChars (s : List Char) : List Char :=
  let s2 :=
    match s with
    | c :: cs => if c = '"' ∨ c = '\'' then cs else c :: cs
    | [] => []
  s2.takeWhile (fun c => ! (c = '"' ∨ c = '\'' ∨ c = ' ' ∨ c = '>'))

/-- The literal `href=` of the pattern. -/
def hrefMarker : List Char := "href=".toList

/-- One attempted match of
`HTML_LINK_REGEX = <a[^>]*href=["']?(?P<href>[^"' >]*)["']?[^>]*>` at the
start of the input: the input must begin with `<a`, the tag region runs to
the first `>`, `href=` must occur in that region (bound to its last
occurrence, see `suffixAfterLast`), and the href group is parsed right after
it.  Returns the captured href and the rest of the input after the
match. -/
def matchAnchor : List Char → Option (List Char × List Char)
  | '<' :: 'a' :: cs =>
    (match gtSplit cs with
      | some (region, rest) =>
        match suffixAfterLast hrefMarker region with
        | some suffix => some (hrefChars suffix, rest)
        | none => none
      | none => none)
  | _ => none

/-- The scan of `re.finditer(HTML_LINK_REGEX, html)`: try to match at every
position, left to right; after a match, resume after its end
(non-overlapping matches).  The fuel starts at the input length and every
step consumes at least one character. -/
def findHrefsGo : Nat → List Char → List (List Char)
  | 0, _ => []
  | _ + 1, [] => []
  | fuel + 1, c :: cs =>
    match matchAnchor (c :: cs) with
    | some (href, rest) => href :: findHrefsGo fuel rest
    | none => findHrefsGo fuel cs

/-- The hrefs captured by `HTML_LINK_REGEX.finditer` over a page, in match
order. -/
def findHrefs (s : List Char) : List (List Char) :=
  findHrefsGo s.length s

/-- The `"pdoc:"` scheme marker tested by `href.startswith("pdoc:")`. -/
def pdocMarker : List Char := "pdoc:".toList

/-- The rewrite loop of `on_page_content` (mkdocs_plugin.py:322): for each
matched href carrying the `pdoc:` marker and not yet handled, every literal
occurrence of the href in the page is replaced by the resolved link for the
qualified name `href[5:]`, and the href is appended to `handled`.  The
matches are those of the original page: `finditer` iterates over the string
passed to it, unaffected by the reassignments of `html`.  Returns the final
page and the `handled` list, i.e. the distinct targets resolved, in
order. -/
def onPageContentGo (resolveFn : List Char → List Char) :
    List (List Char) → List Char → List (List Char) → List Char × List (List Char)
  | [], html, handled => (html, handled)
  | href :: hs, html, handled =>
    if pdocMarker.isPrefixOf href = true ∧ href ∉ handled then
      onPageContentGo resolveFn hs
        (replaceAll href (resolveFn (href.drop 5)) html) (handled ++ [href])
    else
      onPageContentGo resolveFn hs html handled

/-- Embedding of `MkdocsPlugin.on_page_content` (mkdocs_plugin.py:317), with
the resolver (`_resolve_link` applied to the current file collection) passed
as a function. -/
def on_page_content (resolveFn : List Char → List Char) (html : List Char) :
    List Char :=
  (onPageContentGo resolveFn (findHrefs html) html []).1

-- Behaviour of the rewrite loop.

/-- The handled list accumulates exactly the not-yet-seen `pdoc:` targets. -/
theorem onPageContentGo_handled_spec (resolveFn : List Char → List Char) :
    ∀ hs html handled, handled.Nodup →
      ((onPageContentGo resolveFn hs html handled).2.Nodup
      ∧ ∀ t, t ∈ (onPageContentGo resolveFn hs html handled).2
          ↔ (t ∈ handled ∨ (pdocMarker.isPrefixOf t = true ∧ t ∈ hs))) := by
  intro hs
  induction hs with
  | nil =>
    intro html handled hnd
    refine ⟨hnd, ?_⟩
    intro t
    simp [onPageContentGo]
  | cons h hs' ih =>
    intro html handled hnd
    by_cases hcond : pdocMarker.isPrefixOf h = true ∧ h ∉ handled
    · have hnd' : (handled ++ [h]).Nodup := by
        simp [List.nodup_append, hnd, hcond.2]
      obtain ⟨ihnd, ihmem⟩ := ih (replaceAll h (resolveFn (h.drop 5)) html)
        (handled ++ [h]) hnd'
      rw [onPageContentGo, if_pos hcond]
      refine ⟨ihnd, ?_⟩
      intro t
      rw [ihmem t]
      simp only [List.mem_append, List.mem_cons, List.not_mem_nil, or_false]
      constructor
      · rintro (⟨hmem | rfl⟩ | ⟨hpd, hmem⟩)
        · exact Or.inl hmem
        · exact Or.inr ⟨hcond.1, Or.inl rfl⟩
        · exact Or.inr ⟨hpd, Or.inr hmem⟩
      · rintro (hmem | ⟨hpd, rfl | hmem⟩)
        · exact Or.inl (Or.inl hmem)
        · exact Or.inl (Or.inr rfl)
        · exact Or.inr ⟨hpd, hmem⟩
    · obtain ⟨ihnd, ihmem⟩ := ih html handled hnd
      rw [onPageContentGo, if_neg hcond]
      refine ⟨ihnd, ?_⟩
      intro t
      rw [ihmem t]
      simp only [List.mem_cons]
      constructor
      · rintro (hmem | ⟨hpd, hmem⟩)
        · exact Or.inl hmem
        · exact Or.inr ⟨hpd, Or.inr hmem⟩
      · rintro (hmem | ⟨hpd, rfl | hmem⟩)
        · exact Or.inl hmem
        · rcases Decidable.em (t ∈ handled) with hin | hout
          · exact Or.inl hin
          · exact absurd ⟨hpd, hout⟩ hcond
        · exact Or.inr ⟨hpd, hmem⟩

/-- The final page is the original page with the handled targets replaced in
order. -/
theorem onPageContentGo_fold_spec (resolveFn : List Char → List Char) :
    ∀ hs html handled, ∃ added,
      onPageContentGo resolveFn hs html handled
        = (added.foldl (fun acc t => replaceAll t (resolveFn (t.drop 5)) acc) html,
           handled ++ added) := by
  intro hs
  induction hs with
  | nil =>
    intro html handled
    exact ⟨[], by simp [onPageContentGo]⟩
  | cons h hs' ih =>
    intro html handled
    by_cases hcond : pdocMarker.isPrefixOf h = true ∧ h ∉ handled
    · obtain ⟨added, hadded⟩ := ih (replaceAll h (resolveFn (h.drop 5)) html)
        (handled ++ [h])
      refine ⟨h :: added, ?_⟩
      rw [onPageContentGo, if_pos hcond, hadded]
      simp
    · obtain ⟨added, hadded⟩ := ih html handled
      refine ⟨added, ?_⟩
      rw [onPageContentGo, if_neg hcond, hadded]

/-- C9.  Link-rewriter deduplication and purity: the list of targets the
loop resolves contains each distinct `pdoc:`-marked matched target exactly
once (it has no duplicates and holds exactly the `pdoc:` hrefs matched in
the page), and the returned page is the input page with each of those
targets literally substituted — every occurrence, via `str.replace` — by its
resolved link, in order.  The embedding is a pure function of the page and
the resolver: no other state is read or written. -/
theorem rewriter_dedup (resolveFn : List Char → List Char) (html : List Char) :
    (onPageContentGo resolveFn (findHrefs html) html []).2.Nodup
    ∧ (∀ t, t ∈ (onPageContentGo resolveFn (findHrefs html) html []).2
        ↔ (pdocMarker.isPrefixOf t = true ∧ t ∈ findHrefs html))
    ∧ on_page_content resolveFn html
        = (onPageContentGo resolveFn (findHrefs html) html []).2.foldl
            (fun acc t => replaceAll t (resolveFn (t.drop 5)) acc) html := by
  obtain ⟨hnd, hmem⟩ :=
    onPageContentGo_handled_spec resolveFn (findHrefs html) html [] List.nodup_nil
  refine ⟨hnd, ?_, ?_⟩
  · intro t
    rw [hmem t]
    simp
  · obtain ⟨added, hadded⟩ :=
      onPageContentGo_fold_spec resolveFn (findHrefs html) html []
    show (onPageContentGo resolveFn (findHrefs html) html []).1
      = (onPageContentGo resolveFn (findHrefs html) html []).2.foldl
          (fun acc t => replaceAll t (resolveFn (t.drop 5)) acc) html
    rw [hadded]
    simp

/-- Page fixture with the same `pdoc:` target in two anchors. -/
def htmlDupEx : List Char :=
  "<a href=pdoc:a.b>x</a><a href=pdoc:a.b>y</a>".toList

/-- Witness for C9: the duplicated target `pdoc:a.b` is resolved once, and
both occurrences are substituted. -/
theorem rewriter_dedup_witness :
    (onPageContentGo (fun s => s) (findHrefs htmlDupEx) htmlDupEx []).2
      = ["pdoc:a.b".toList]
    ∧ on_page_content (fun s => s) htmlDupEx
      = "<a href=a.b>x</a><a href=a.b>y</a>".toList := by
  have h := rewriter_dedup (fun s => s) htmlDupEx
  exact ⟨by decide, by decide⟩

/-- The rewrite loop leaves the page unchanged when no matched target
carries the `pdoc:` marker. -/
theorem onPageContentGo_id (resolveFn : List Char → List Char) :
    ∀ hs html handled, (∀ h, h ∈ hs → pdocMarker.isPrefixOf h = false) →
      (onPageContentGo resolveFn hs html handled).1 = html := by
  intro hs
  induction hs with
  | nil => intro html handled _; rfl
  | cons h hs' ih =>
    intro html handled hall
    have hf : pdocMarker.isPrefixOf h = false := hall h (List.mem_cons_self h hs')
    have hcond : ¬(pdocMarker.isPrefixOf h = true ∧ h ∉ handled) := by
      rintro ⟨hp, _⟩
      rw [hf] at hp
      exact Bool.false_ne_true hp
    rw [onPageContentGo, if_neg hcond]
    exact ih html handled (fun x hx => hall x (List.mem_cons_of_mem h hx))

/-- C10.  Rewriter identity on non-matching content: when no anchor href
captured by `HTML_LINK_REGEX` begins with `pdoc:`, `on_page_content` returns
the page completely unchanged — other schemes, plain text mentioning
`pdoc:`, and non-anchor markup are never modified. -/
theorem rewriter_identity (resolveFn : List Char → List Char) (html : List Char)
    (h : ∀ t, t ∈ findHrefs html → pdocMarker.isPrefixOf t = false) :
    on_page_content resolveFn html = html :=
  onPageContentGo_id resolveFn (findHrefs html) html [] h

/-- Page fixture whose only anchor uses another scheme while the text
mentions `pdoc:`. -/
def htmlPlainEx : List Char :=
  "<a href=\"https://x/\">see pdoc:demo</a>".toList

/-- Witness for C10: that page passes through unchanged. -/
theorem rewriter_identity_witness :
    on_page_content (fun s => s) htmlPlainEx = htmlPlainEx :=
  rewriter_identity (fun s => s) htmlPlainEx (by decide)
